import Mathlib

/-!
# Verification of the glocc line-of-code counter

Shallow embedding of the glocc repository (package `glocc`): the per-file
line-classification state machine of `loccounter.go`, the language registry
of the languages table, and the directory walker / result aggregation of
`count.go`.  Strings are modelled as `List Char` (Go strings viewed as
sequences of Unicode code points; all comment tokens in the registry are
ASCII, so byte indices and code-point indices order occurrences
identically).  Go maps (`map[string]int`) are modelled as association
lists with Go's update-or-insert assignment semantics.
-/

namespace Glocc

/-! ## Language descriptors (`language` struct and `allLanguages` table) -/

/-- Embedding of the `language` struct: comment-token configuration of one
language.  Extensions and tokens are kept as `List Char` to mirror Go string
operations; `name` is the display name used as the key of result maps. -/
structure Language where
  name : String
  extensions : List (List Char)
  inlineCommentTokens : List (List Char)
  multiLineCommentStartingTokens : List (List Char)
  multiLineCommentEndingTokens : List (List Char)
deriving DecidableEq

def langAssembly : Language :=
  { name := "Assembly"
    extensions := ["asm".data, "s".data, "S".data]
    inlineCommentTokens := [";".data]
    multiLineCommentStartingTokens := []
    multiLineCommentEndingTokens := [] }

def langC : Language :=
  { name := "C"
    extensions := ["c".data, "h".data]
    inlineCommentTokens := ["//".data]
    multiLineCommentStartingTokens := ["/*".data]
    multiLineCommentEndingTokens := ["*/".data] }

def langCpp : Language :=
  { name := "C++"
    extensions := ["cc".data, "hh".data, "C".data, "H".data, "cpp".data,
      "hpp".data, "cxx".data, "hxx".data, "c++".data, "h++".data]
    inlineCommentTokens := ["//".data]
    multiLineCommentStartingTokens := ["/*".data]
    multiLineCommentEndingTokens := ["*/".data] }

def langD : Language :=
  { name := "D"
    extensions := ["d".data]
    inlineCommentTokens := ["//".data, "///".data]
    multiLineCommentStartingTokens := ["/*".data, "/+".data]
    multiLineCommentEndingTokens := ["*/".data, "+/".data] }

def langGo : Language :=
  { name := "Go"
    extensions := ["go".data]
    inlineCommentTokens := ["//".data]
    multiLineCommentStartingTokens := ["/*".data]
    multiLineCommentEndingTokens := ["*/".data] }

def langHaskell : Language :=
  { name := "Haskell"
    extensions := ["hs".data, "lhs".data]
    inlineCommentTokens := ["--".data]
    multiLineCommentStartingTokens := ["\x7b-".data]
    multiLineCommentEndingTokens := ["-\x7d".data] }

def langHTML : Language :=
  { name := "HTML"
    extensions := ["html".data, "htm".data]
    inlineCommentTokens := []
    multiLineCommentStartingTokens := ["<!--".data]
    multiLineCommentEndingTokens := ["-->".data] }

def langJava : Language :=
  { name := "Java"
    extensions := ["java".data]
    inlineCommentTokens := ["//".data]
    multiLineCommentStartingTokens := ["/*".data, "/**".data]
    multiLineCommentEndingTokens := ["*/".data] }

def langJavascript : Language :=
  { name := "Javascript"
    extensions := ["js".data]
    inlineCommentTokens := ["//".data]
    multiLineCommentStartingTokens := ["/*".data]
    multiLineCommentEndingTokens := ["*/".data] }

def langKotlin : Language :=
  { name := "Kotlin"
    extensions := ["kt".data, "kts".data]
    inlineCommentTokens := ["//".data]
    multiLineCommentStartingTokens := ["/*".data]
    multiLineCommentEndingTokens := ["*/".data] }

def langMakefile : Language :=
  { name := "Makefile"
    extensions := ["Makefile".data]
    inlineCommentTokens := ["#".data]
    multiLineCommentStartingTokens := []
    multiLineCommentEndingTokens := [] }

def langMatlab : Language :=
  { name := "Matlab"
    extensions := ["m".data]
    inlineCommentTokens := ["%".data]
    multiLineCommentStartingTokens := ["%\x7b".data]
    multiLineCommentEndingTokens := ["%\x7d".data] }

def langOCaml : Language :=
  { name := "OCaml"
    extensions := ["ml".data, "mli".data]
    inlineCommentTokens := []
    multiLineCommentStartingTokens := ["(*".data]
    multiLineCommentEndingTokens := ["*)".data] }

def langPHP : Language :=
  { name := "PHP"
    extensions := ["php".data]
    inlineCommentTokens := ["#".data, "//".data]
    multiLineCommentStartingTokens := ["/*".data, "/**".data]
    multiLineCommentEndingTokens := ["*/".data] }

def langPython : Language :=
  { name := "Python"
    extensions := ["py".data]
    inlineCommentTokens := ["#".data]
    multiLineCommentStartingTokens := ["\x22\x22\x22".data, "\x27\x27\x27".data]
    multiLineCommentEndingTokens := ["\x22\x22\x22".data, "\x27\x27\x27".data] }

def langRuby : Language :=
  { name := "Ruby"
    extensions := ["rb".data]
    inlineCommentTokens := ["#".data]
    multiLineCommentStartingTokens := ["=begin".data]
    multiLineCommentEndingTokens := ["=end".data] }

def langRust : Language :=
  { name := "Rust"
    extensions := ["rs".data, "rlib".data]
    inlineCommentTokens := ["//".data, "///".data, "//!".data]
    multiLineCommentStartingTokens := ["/*".data, "/**".data, "/*!".data]
    multiLineCommentEndingTokens := ["*/".data] }

def langShell : Language :=
  { name := "Shell"
    extensions := ["sh".data, "bash".data, "zsh".data, "ksh".data, "csh".data]
    inlineCommentTokens := ["#".data]
    multiLineCommentStartingTokens := []
    multiLineCommentEndingTokens := [] }

def langSML : Language :=
  { name := "SML"
    extensions := ["sml".data]
    inlineCommentTokens := []
    multiLineCommentStartingTokens := ["(*".data]
    multiLineCommentEndingTokens := ["*)".data] }

/-- The `allLanguages` table, in source order. -/
def allLanguages : List Language :=
  [langAssembly, langC, langCpp, langD, langGo, langHaskell, langHTML,
   langJava, langJavascript, langKotlin, langMakefile, langMatlab,
   langOCaml, langPHP, langPython, langRuby, langRust, langShell, langSML]

/-- The `languages` map lookup: the `init` loop writes
`languages[ext] = lang` for each language in table order, so the last
language claiming an extension wins.  `none` models a missing key. -/
def lookupLanguage (ext : List Char) : Option Language :=
  allLanguages.foldl (fun acc lang =>
    if ext ∈ lang.extensions then some lang else acc) none

/-! ## String helpers (`strings.TrimLeft`, `strings.Index`, `reversed`) -/

/-- `strings.TrimLeft(s, " \t")`: drop leading spaces and tabs. -/
def trimLeft (l : List Char) : List Char :=
  l.dropWhile (fun c => c == ' ' || c == '\t')

/-- `strings.Index(s, t)`: position of the first occurrence of `t` in `s`,
`none` for Go's `-1`. -/
def firstIndexOf (t : List Char) : List Char → Option Nat
  | [] => if t.isPrefixOf ([] : List Char) then some 0 else none
  | c :: rest =>
    if t.isPrefixOf (c :: rest) then some 0
    else (firstIndexOf t rest).map (· + 1)

/-- The scan pattern shared by `inlineCommentIndex` and the two
multi-line-comment searches: the lowest index at which any token of the
list occurs (earlier-listed tokens win ties, matching the strict `<`
updates of the Go loops), together with the winning token.  Defaults to
`(line.length, [])` when no token occurs, as in the source. -/
def scanMin (line : List Char) (tokens : List (List Char)) : Nat × List Char :=
  tokens.foldl (fun acc t =>
    match firstIndexOf t line with
    | some i => if i < acc.1 then (i, t) else acc
    | none => acc) (line.length, [])

/-- `LocCounter.inlineCommentIndex`: index of the first inline comment
token in the current line, or the line length if none occurs. -/
def inlineCommentIndex (lang : Language) (line : List Char) : Nat :=
  (scanMin line lang.inlineCommentTokens).1

/-- `reversed`: the input string reversed code point by code point. -/
def reversed (s : List Char) : List Char := s.reverse

/-! ## The line-classification state machine -/

/-- The `loccState` of a `LocCounter`: `stateInitial`, `stateCode`, or
`stateMultiLineComment` carrying the opening token. -/
inductive LoccState where
  | initial : LoccState
  | code : LoccState
  | mlc (token : List Char) : LoccState
deriving DecidableEq

/-- The candidate closing tokens computed at the top of
`stateMultiLineComment.process`: if the reversal of the stored opening
token is one of the declared ending tokens, the candidate list is that
single reversed token, otherwise it is the full declared ending-token
list. -/
def mlcCloseTokens (lang : Language) (token : List Char) : List (List Char) :=
  let reversedToken := reversed token
  if lang.multiLineCommentEndingTokens.any (fun t => t == reversedToken) then
    [reversedToken]
  else
    lang.multiLineCommentEndingTokens

/-- Result of one `process` call: whether the line is done, the next
state, the remaining line, and the counted flag. -/
structure StepOut where
  done : Bool
  state : LoccState
  line : List Char
  counted : Bool
deriving DecidableEq

/-- One `loccState.process` call on the current (already left-trimmed)
line.  Each branch is translated from the corresponding `process` method
of `stateInitial`, `stateCode` and `stateMultiLineComment`. -/
def processStep (lang : Language) (st : LoccState) (line : List Char)
    (counted : Bool) : StepOut :=
  match st with
  | .initial =>
    let iIdx := inlineCommentIndex lang line
    if line.isEmpty || iIdx == 0 then
      ⟨true, .initial, line, counted⟩
    else
      let m := scanMin line lang.multiLineCommentStartingTokens
      if m.1 < iIdx then
        ⟨false, .mlc m.2, trimLeft (line.drop (m.1 + m.2.length)),
          if 0 < m.1 then true else counted⟩
      else
        ⟨false, .code, line, counted⟩
  | .code =>
    let iIdx := inlineCommentIndex lang line
    if line.isEmpty || iIdx == 0 then
      ⟨true, .code, line, counted⟩
    else
      let m := scanMin line lang.multiLineCommentStartingTokens
      if m.1 < iIdx then
        ⟨false, .mlc m.2, trimLeft (line.drop (m.1 + m.2.length)),
          if 0 < m.1 then true else counted⟩
      else
        ⟨true, .code, line, true⟩
  | .mlc token =>
    let m := scanMin line (mlcCloseTokens lang token)
    if m.1 < line.length then
      ⟨false, .code, trimLeft (line.drop (m.1 + m.2.length)), counted⟩
    else
      ⟨true, .mlc token, line, counted⟩

/-- The `for !lc.state.process(lc) {}` loop, with explicit fuel.  For any
language whose comment tokens are non-empty every non-done step after the
first strictly consumes input, so `line.length + 2` steps always reach a
done step; the fuel-exhausted branch is unreachable there (for a
degenerate descriptor with an empty token the Go loop would not
terminate at all). -/
def runLine : Nat → Language → LoccState → List Char → Bool → LoccState × Bool
  | 0, _, st, _, counted => (st, counted)
  | fuel + 1, lang, st, line, counted =>
    let r := processStep lang st line counted
    if r.done then (r.state, r.counted)
    else runLine fuel lang r.state r.line r.counted

/-- Processing of one physical line inside `LocCounter.Count`: left-trim
the scanned text, clear the per-line counted flag, loop `process` until
done.  Returns the state carried to the next line and the line's
counted/discarded verdict. -/
def processLine (lang : Language) (st : LoccState) (rawLine : List Char) :
    LoccState × Bool :=
  let line := trimLeft rawLine
  runLine (line.length + 2) lang st line false

/-- The scanner loop of `LocCounter.Count` over the scanned lines:
accumulated `loc` and final state. -/
def countRun (lang : Language) : LoccState → List (List Char) → Nat × LoccState
  | st, [] => (0, st)
  | st, l :: ls =>
    let r := processLine lang st l
    let rest := countRun lang r.1 ls
    ((if r.2 then 1 else 0) + rest.1, rest.2)

/-- Number of counted lines, starting from a given state. -/
def countLines (lang : Language) (st : LoccState) (lines : List (List Char)) : Nat :=
  (countRun lang st lines).1

/-- Classifier state after a list of lines. -/
def stateAfter (lang : Language) (st : LoccState) (lines : List (List Char)) : LoccState :=
  (countRun lang st lines).2

/-- `LocCounter.Count`: the scanner yields `scanned` lines and then
reports `readErr` (`fsc.Err() != nil`).  Both return paths hand back the
accumulated `lc.loc`, paired with the error indicator. -/
def LocCounterCount (lang : Language) (scanned : List (List Char))
    (readErr : Bool) : Nat × Bool :=
  (countLines lang LoccState.initial scanned, readErr)

/-! ## Go maps `map[string]int` as association lists -/

/-- A `map[string]int`, as the list of its entries. -/
abbrev LangMap := List (String × Nat)

/-- Map read `m[k]`: `none` models a missing key. -/
def mapGet : LangMap → String → Option Nat
  | [], _ => none
  | p :: rest, k => if p.1 = k then some p.2 else mapGet rest k

/-- Map read with Go's zero value for missing keys. -/
def lookup0 (m : LangMap) (k : String) : Nat := (mapGet m k).getD 0

/-- The merge assignment of the gather loop in `locDir`:
`if exists { m[k] += v } else { m[k] = v }`. -/
def mapAdd : LangMap → String → Nat → LangMap
  | [], k, v => [(k, v)]
  | p :: rest, k, v =>
    if p.1 = k then (p.1, p.2 + v) :: rest else p :: mapAdd rest k v

/-- `for lang, loc := range child { ... }`: fold the entries of a child
result's map into the accumulated summary with `mapAdd`. -/
def mergeSummary (acc : LangMap) (child : LangMap) : LangMap :=
  child.foldl (fun m p => mapAdd m p.1 p.2) acc

/-- The gather loop of `locDir` merging one child map after another into
the (initially empty) summary of the owning directory, in arrival
order. -/
def foldSummaries (children : List LangMap) : LangMap :=
  children.foldl mergeSummary []

/-! ## Results and the directory walker (`count.go`) -/

/-- `FileResult`: name and per-language count of one counted file. -/
structure FileResult where
  name : String
  loc : LangMap
deriving DecidableEq

/-- `DirResult`: name, subdirectory results, file results and summary of
one directory.  Paths are modelled by their base names (`readdir` names
contain no separator, so `filepath.Base(filepath.Join(dir, name)) =
name`). -/
inductive DirResult where
  | mk (name : String) (subdirs : List DirResult) (files : List FileResult)
      (summary : LangMap) : DirResult

def DirResult.name : DirResult → String
  | .mk n _ _ _ => n

def DirResult.subdirs : DirResult → List DirResult
  | .mk _ ds _ _ => ds

def DirResult.files : DirResult → List FileResult
  | .mk _ _ fs _ => fs

def DirResult.summary : DirResult → LangMap
  | .mk _ _ _ sm => sm

/-- A filesystem tree, as seen through `Readdir`: regular files carry the
lines their scanner yields plus whether the read fails afterwards,
directories carry their entries, and `other` stands for any non-regular,
non-directory entry (symlink, device, ...). -/
inductive FsEntry where
  | file (name : String) (lines : List (List Char)) (readErr : Bool) : FsEntry
  | dir (name : String) (entries : List FsEntry) : FsEntry
  | other (name : String) : FsEntry

/-- `filepath.Ext` on a base name: the suffix starting at the final dot,
including the dot; `[]` for Go's `""` when there is no dot. -/
def goExt : List Char → List Char
  | [] => []
  | c :: rest =>
    let e := goExt rest
    if e.isEmpty then (if c = '.' then c :: rest else []) else e

/-- Extension detection in `locFile`: the extension without its leading
dot, or the `Makefile`/`Dockerfile` pseudo-extensions for dotless names
with those prefixes. -/
def detectExt (baseName : List Char) : List Char :=
  let e := goExt baseName
  if e.isEmpty then
    if ("Makefile".data).isPrefixOf baseName then "Makefile".data
    else if ("Dockerfile".data).isPrefixOf baseName then "Dockerfile".data
    else []
  else e.tail

/-- `locFile`: detect the language from the base name, run the counter,
and wrap the outcome.  `none` models the `nil` pointer returned when
`NewLocCounter` rejects the extension.  A mid-read failure is only
logged: the partial count is kept. -/
def locFile (baseName : String) (lines : List (List Char)) (readErr : Bool) :
    Option FileResult :=
  match lookupLanguage (detectExt baseName.data) with
  | none => none
  | some lang =>
    some { name := baseName
           loc := [(lang.name, (LocCounterCount lang lines readErr).1)] }

/-- Appending a received subdirectory result in the gather loop of
`locDir`: `result.Subdirs = append(...)` plus the summary merge. -/
def pushDir (acc : DirResult) (dr : DirResult) : DirResult :=
  .mk acc.name (acc.subdirs ++ [dr]) acc.files
    (mergeSummary acc.summary dr.summary)

/-- Appending a received (non-`nil`) file result in the gather loop of
`locDir`. -/
def pushFile (acc : DirResult) (fr : FileResult) : DirResult :=
  .mk acc.name acc.subdirs (acc.files ++ [fr])
    (mergeSummary acc.summary fr.loc)

/-- The body of `locDir`: spawn one task per child and gather the
results.  The concurrent gather is modelled by folding the children in
listing order (one admissible arrival order; `summaries` are
order-independent by the merge lemmas below).  A `nil` file result
(unsupported language) is skipped by the `fr != nil` guard; `other`
entries are skipped at spawn time.  A subdirectory named `.git` returns
its empty result before listing anything. -/
def locDirAux : List FsEntry → DirResult → DirResult
  | [], acc => acc
  | FsEntry.dir n es :: rest, acc =>
    locDirAux rest (pushDir acc
      (if n = ".git" then DirResult.mk n [] [] []
       else locDirAux es (DirResult.mk n [] [] [])))
  | FsEntry.file f ls er :: rest, acc =>
    (match locFile f ls er with
     | some fr => locDirAux rest (pushFile acc fr)
     | none => locDirAux rest acc)
  | FsEntry.other _ :: rest, acc => locDirAux rest acc

/-- `locDir`: empty result for a directory named `.git`, otherwise gather
all children into an initially empty result. -/
def locDir (dirName : String) (entries : List FsEntry) : DirResult :=
  if dirName = ".git" then DirResult.mk dirName [] [] []
  else locDirAux entries (DirResult.mk dirName [] [] [])

/-- What `os.Stat` on the (absolutized) root reveals. -/
inductive RootInfo where
  | statFail : RootInfo
  | dir (entries : List FsEntry) : RootInfo
  | regular (lines : List (List Char)) (readErr : Bool) : RootInfo
  | other : RootInfo

/-- `CountLoc`: the root result.  For a root that stats to a regular file
the code reads `fileResult.Name` (and dereferences `*fileResult`) without
a `nil` check; `none` models the nil-pointer dereference panic that
happens when `locFile` returns `nil` there. -/
def CountLoc (root : String) (info : RootInfo) : Option DirResult :=
  let init := DirResult.mk root [] [] []
  match info with
  | .statFail => some init
  | .other => some init
  | .dir entries => some (locDir root entries)
  | .regular lines readErr =>
    match locFile root lines readErr with
    | none => none
    | some fr => some (DirResult.mk fr.name [] [fr] fr.loc)

/-! ## Derived notions used by the statements -/

/-- Sum of the values of all entries of `m` whose key is `k` (equals
`lookup0 m k` when keys are unique). -/
def entriesSum (m : LangMap) (k : String) : Nat :=
  (m.map (fun p => if p.1 = k then p.2 else 0)).sum

/-- Keys of the association list are pairwise distinct (true of every map
the walker builds, since Go maps cannot hold duplicate keys). -/
def NodupKeys (m : LangMap) : Prop :=
  m.Pairwise (fun p q => p.1 ≠ q.1)

/-- Per-language total of a list of file results. -/
def sumFiles (fs : List FileResult) (k : String) : Nat :=
  (fs.map (fun f => lookup0 f.loc k)).sum

/-- Per-language total of a list of directory results. -/
def sumDirs (ds : List DirResult) (k : String) : Nat :=
  (ds.map (fun d => lookup0 d.summary k)).sum

/-- The additivity invariant of the spec, at every level of a result
tree: the summary of each node is the per-language sum of its immediate
files and subdirectory summaries, a language key held by the summary is
held by some immediate child, and the same holds recursively in every
subdirectory result. -/
inductive Additive : DirResult → Prop where
  | intro (n : String) (ds : List DirResult) (fs : List FileResult) (sm : LangMap) :
      (∀ L, lookup0 sm L = sumFiles fs L + sumDirs ds L) →
      (∀ L, mapGet sm L ≠ none →
        (∃ f ∈ fs, mapGet f.loc L ≠ none) ∨ (∃ d ∈ ds, mapGet d.summary L ≠ none)) →
      (∀ d ∈ ds, Additive d) →
      Additive (DirResult.mk n ds fs sm)

/-! ## Lemmas about the map model -/

theorem mapGet_mapAdd (k : String) (v : Nat) (L : String) (m : LangMap) :
    mapGet (mapAdd m k v) L =
      if k = L then some (lookup0 m L + v) else mapGet m L := by
  induction m with
  | nil => simp [mapAdd, mapGet, lookup0]
  | cons p rest ih =>
    obtain ⟨pk, pv⟩ := p
    by_cases hpk : pk = k
    · subst hpk
      by_cases hkL : pk = L
      · subst hkL
        simp [mapAdd, mapGet, lookup0]
      · simp [mapAdd, mapGet, lookup0, hkL]
    · by_cases hpL : pk = L
      · subst hpL
        have hkL : ¬ k = pk := fun h => hpk h.symm
        simp [mapAdd, mapGet, lookup0, hpk, hkL]
      · simp [mapAdd, mapGet, lookup0, hpk, hpL, ih]

theorem lookup0_mapAdd (k : String) (v : Nat) (L : String) (m : LangMap) :
    lookup0 (mapAdd m k v) L = lookup0 m L + (if k = L then v else 0) := by
  rw [lookup0, mapGet_mapAdd]
  split <;> simp [lookup0]

theorem mapGet_mapAdd_eq_none (k : String) (v : Nat) (L : String) (m : LangMap) :
    mapGet (mapAdd m k v) L = none ↔ (¬ k = L ∧ mapGet m L = none) := by
  rw [mapGet_mapAdd]
  split <;> simp_all

theorem mergeSummary_nil (a : LangMap) : mergeSummary a [] = a := rfl

theorem mergeSummary_cons (a : LangMap) (p : String × Nat) (c : LangMap) :
    mergeSummary a (p :: c) = mergeSummary (mapAdd a p.1 p.2) c := rfl

theorem lookup0_mergeSummary (c : LangMap) :
    ∀ (a : LangMap) (L : String),
      lookup0 (mergeSummary a c) L = lookup0 a L + entriesSum c L := by
  induction c with
  | nil => intro a L; simp [mergeSummary, entriesSum]
  | cons p c ih =>
    intro a L
    rw [mergeSummary_cons, ih, lookup0_mapAdd]
    simp only [entriesSum, List.map_cons, List.sum_cons]
    by_cases h : p.1 = L <;> simp [h, entriesSum] <;> try omega

theorem mapGet_mergeSummary_eq_none (c : LangMap) :
    ∀ (a : LangMap) (L : String),
      mapGet (mergeSummary a c) L = none ↔
        (mapGet a L = none ∧ ∀ p ∈ c, p.1 ≠ L) := by
  induction c with
  | nil => intro a L; simp [mergeSummary]
  | cons p c ih =>
    intro a L
    rw [mergeSummary_cons, ih]
    simp only [mapGet_mapAdd_eq_none, List.mem_cons]
    constructor
    · rintro ⟨⟨hk, ha⟩, hc⟩
      exact ⟨ha, fun q hq => hq.elim (fun h => h ▸ hk) (hc q)⟩
    · rintro ⟨ha, hall⟩
      exact ⟨⟨hall p (Or.inl rfl), ha⟩, fun q hq => hall q (Or.inr hq)⟩

theorem mapGet_eq_none_iff (L : String) (m : LangMap) :
    mapGet m L = none ↔ ∀ p ∈ m, p.1 ≠ L := by
  induction m with
  | nil => simp [mapGet]
  | cons p rest ih =>
    by_cases h : p.1 = L <;> simp [mapGet, h, ih]

theorem entriesSum_eq_zero (L : String) (m : LangMap)
    (h : ∀ p ∈ m, p.1 ≠ L) : entriesSum m L = 0 := by
  induction m with
  | nil => simp [entriesSum]
  | cons p rest ih =>
    have hp : p.1 ≠ L := h p (List.mem_cons_self _ _)
    simp only [entriesSum, List.map_cons, List.sum_cons, if_neg hp]
    simpa [entriesSum] using ih (fun q hq => h q (List.mem_cons_of_mem _ hq))

theorem entriesSum_eq_lookup0 (L : String) (m : LangMap)
    (h : NodupKeys m) : entriesSum m L = lookup0 m L := by
  induction m with
  | nil => simp [entriesSum, lookup0, mapGet]
  | cons p rest ih =>
    rw [NodupKeys, List.pairwise_cons] at h
    by_cases hp : p.1 = L
    · have hz : entriesSum rest L = 0 :=
        entriesSum_eq_zero L rest (fun q hq hqL => h.1 q hq (hp.trans hqL.symm))
      simp [entriesSum, lookup0, mapGet, hp, hz] at *
      simpa [entriesSum] using hz
    · simp only [entriesSum, List.map_cons, List.sum_cons, if_neg hp,
        Nat.zero_add, lookup0, mapGet, if_neg hp]
      simpa [entriesSum, lookup0] using ih h.2

theorem mem_mapAdd_key (k : String) (v : Nat) :
    ∀ (m : LangMap) (q : String × Nat), q ∈ mapAdd m k v →
      q.1 = k ∨ q.1 ∈ m.map Prod.fst := by
  intro m
  induction m with
  | nil =>
    intro q hq
    simp only [mapAdd, List.mem_singleton] at hq
    exact Or.inl (by simp [hq])
  | cons p rest ih =>
    intro q hq
    by_cases hpk : p.1 = k
    · simp only [mapAdd, if_pos hpk] at hq
      rcases List.mem_cons.mp hq with h | h
      · subst h
        exact Or.inr (show p.1 ∈ (p :: rest).map Prod.fst from
          List.mem_map_of_mem Prod.fst (List.mem_cons_self p rest))
      · exact Or.inr (List.mem_map_of_mem Prod.fst (List.mem_cons_of_mem p h))
    · simp only [mapAdd, if_neg hpk] at hq
      rcases List.mem_cons.mp hq with h | h
      · subst h
        exact Or.inr (List.mem_map_of_mem Prod.fst (List.mem_cons_self _ _))
      · rcases ih q h with h' | h'
        · exact Or.inl h'
        · rcases List.mem_map.mp h' with ⟨r, hr, hrq⟩
          exact Or.inr (hrq ▸ List.mem_map_of_mem Prod.fst (List.mem_cons_of_mem p hr))

theorem nodupKeys_mapAdd (k : String) (v : Nat) :
    ∀ (m : LangMap), NodupKeys m → NodupKeys (mapAdd m k v) := by
  intro m
  induction m with
  | nil => intro _; simp [mapAdd, NodupKeys]
  | cons p rest ih =>
    intro h
    rw [NodupKeys, List.pairwise_cons] at h
    by_cases hpk : p.1 = k
    · rw [NodupKeys]
      simp only [mapAdd, if_pos hpk]
      exact List.Pairwise.cons (fun q hq => h.1 q hq) h.2
    · rw [NodupKeys]
      simp only [mapAdd, if_neg hpk]
      refine List.Pairwise.cons (fun q hq => ?_) (ih h.2)
      rcases mem_mapAdd_key k v rest q hq with h' | h'
      · exact fun hc => hpk (hc.trans h')
      · rcases List.mem_map.mp h' with ⟨r, hr, hrq⟩
        exact fun hc => (h.1 r hr) (hc.trans hrq.symm)

theorem nodupKeys_mergeSummary (c : LangMap) :
    ∀ (a : LangMap), NodupKeys a → NodupKeys (mergeSummary a c) := by
  induction c with
  | nil => intro a h; exact h
  | cons p c ih =>
    intro a h
    rw [mergeSummary_cons]
    exact ih _ (nodupKeys_mapAdd p.1 p.2 a h)

theorem lookup0_foldSummaries_general (ms : List LangMap) :
    ∀ (a : LangMap) (L : String),
      lookup0 (ms.foldl mergeSummary a) L =
        lookup0 a L + (ms.map (fun m => entriesSum m L)).sum := by
  induction ms with
  | nil => intro a L; simp
  | cons m ms ih =>
    intro a L
    simp only [List.foldl_cons, List.map_cons, List.sum_cons, ih,
      lookup0_mergeSummary]
    omega

theorem mapGet_foldSummaries_general (ms : List LangMap) :
    ∀ (a : LangMap) (L : String),
      mapGet (ms.foldl mergeSummary a) L = none ↔
        (mapGet a L = none ∧ ∀ m ∈ ms, ∀ p ∈ m, p.1 ≠ L) := by
  induction ms with
  | nil => intro a L; simp
  | cons m ms ih =>
    intro a L
    simp only [List.foldl_cons, ih, mapGet_mergeSummary_eq_none,
      List.mem_cons]
    constructor
    · rintro ⟨⟨ha, hm⟩, hms⟩
      exact ⟨ha, fun m' hm' => hm'.elim (fun h => h ▸ hm) (hms m')⟩
    · rintro ⟨ha, hall⟩
      exact ⟨⟨ha, hall m (Or.inl rfl)⟩, fun m' hm' => hall m' (Or.inr hm')⟩

theorem option_nat_ext (o₁ o₂ : Option Nat)
    (hn : o₁ = none ↔ o₂ = none) (hv : o₁.getD 0 = o₂.getD 0) : o₁ = o₂ := by
  cases o₁ <;> cases o₂ <;> simp_all

/-! ## Unfolding lemmas for the walker -/

theorem locDir_def (nm : String) (es : List FsEntry) :
    locDir nm es = if nm = ".git" then DirResult.mk nm [] [] []
      else locDirAux es (DirResult.mk nm [] [] []) := rfl

theorem locDirAux_nil (acc : DirResult) : locDirAux [] acc = acc := by
  simp [locDirAux]

theorem locDirAux_cons_dir (n : String) (es rest : List FsEntry)
    (acc : DirResult) :
    locDirAux (FsEntry.dir n es :: rest) acc =
      locDirAux rest (pushDir acc (locDir n es)) := by
  rw [locDir_def]
  simp [locDirAux]

theorem locDirAux_cons_file (f : String) (ls : List (List Char)) (er : Bool)
    (rest : List FsEntry) (acc : DirResult) :
    locDirAux (FsEntry.file f ls er :: rest) acc =
      match locFile f ls er with
      | some fr => locDirAux rest (pushFile acc fr)
      | none => locDirAux rest acc := by
  simp [locDirAux]

theorem locDirAux_cons_other (n : String) (rest : List FsEntry)
    (acc : DirResult) :
    locDirAux (FsEntry.other n :: rest) acc = locDirAux rest acc := by
  simp [locDirAux]

theorem locDirAux_append (as bs : List FsEntry) :
    ∀ acc, locDirAux (as ++ bs) acc = locDirAux bs (locDirAux as acc) := by
  induction as with
  | nil => intro acc; simp [locDirAux_nil]
  | cons e as ih =>
    intro acc
    cases e with
    | dir n es =>
      rw [List.cons_append, locDirAux_cons_dir, locDirAux_cons_dir, ih]
    | file f ls er =>
      rw [List.cons_append, locDirAux_cons_file, locDirAux_cons_file]
      cases h : locFile f ls er <;> simp only [ih]
    | other n =>
      rw [List.cons_append, locDirAux_cons_other, locDirAux_cons_other, ih]

/-- The gather fold only appends to the accumulated `subdirs`/`files`
and merges into the accumulated `summary`; the appended and merged parts
do not depend on the already accumulated sequences. -/
theorem locDirAux_acc (es : List FsEntry) :
    ∀ (n : String) (ds : List DirResult) (fs : List FileResult) (sm : LangMap),
      locDirAux es (DirResult.mk n ds fs sm) =
        DirResult.mk n
          (ds ++ (locDirAux es (DirResult.mk n [] [] sm)).subdirs)
          (fs ++ (locDirAux es (DirResult.mk n [] [] sm)).files)
          ((locDirAux es (DirResult.mk n [] [] sm)).summary) := by
  induction es with
  | nil =>
    intro n ds fs sm
    simp [locDirAux_nil, DirResult.subdirs, DirResult.files, DirResult.summary]
  | cons e es ih =>
    intro n ds fs sm
    cases e with
    | dir dn des =>
      rw [locDirAux_cons_dir, locDirAux_cons_dir]
      generalize locDir dn des = c
      obtain ⟨cn, cds, cfs, csm⟩ := c
      simp only [pushDir, DirResult.name, DirResult.subdirs, DirResult.files,
        DirResult.summary, List.nil_append]
      rw [ih n (ds ++ [DirResult.mk cn cds cfs csm]) fs (mergeSummary sm csm),
        ih n [DirResult.mk cn cds cfs csm] [] (mergeSummary sm csm)]
      simp only [DirResult.subdirs, DirResult.files, DirResult.summary,
        List.nil_append, List.append_assoc]
    | file f ls er =>
      rw [locDirAux_cons_file, locDirAux_cons_file]
      cases h : locFile f ls er with
      | none => exact ih n ds fs sm
      | some fr =>
        simp only [pushFile, DirResult.name, DirResult.subdirs,
          DirResult.files, DirResult.summary, List.nil_append]
        rw [ih n ds (fs ++ [fr]) (mergeSummary sm fr.loc),
          ih n [] [fr] (mergeSummary sm fr.loc)]
        simp only [DirResult.subdirs, DirResult.files, DirResult.summary,
          List.nil_append, List.append_assoc]
    | other nm2 =>
      rw [locDirAux_cons_other, locDirAux_cons_other]
      exact ih n ds fs sm

/-! ## Key uniqueness and additivity of the walker results -/

theorem nodupKeys_locDirAux (es : List FsEntry) :
    ∀ (n : String) (ds : List DirResult) (fs : List FileResult) (sm : LangMap),
      NodupKeys sm → NodupKeys (locDirAux es (DirResult.mk n ds fs sm)).summary := by
  induction es with
  | nil =>
    intro n ds fs sm h
    rw [locDirAux_nil]
    exact h
  | cons e es ih =>
    intro n ds fs sm h
    cases e with
    | dir dn des =>
      rw [locDirAux_cons_dir]
      exact ih n (ds ++ [locDir dn des]) fs
        (mergeSummary sm (locDir dn des).summary)
        (nodupKeys_mergeSummary _ sm h)
    | file f ls er =>
      rw [locDirAux_cons_file]
      cases hf : locFile f ls er with
      | none => exact ih n ds fs sm h
      | some fr =>
        exact ih n ds (fs ++ [fr]) (mergeSummary sm fr.loc)
          (nodupKeys_mergeSummary _ sm h)
    | other nm2 =>
      rw [locDirAux_cons_other]
      exact ih n ds fs sm h

theorem nodupKeys_locDir (nm : String) (es : List FsEntry) :
    NodupKeys (locDir nm es).summary := by
  rw [locDir_def]
  by_cases hg : nm = ".git"
  · rw [if_pos hg]
    exact List.Pairwise.nil
  · rw [if_neg hg]
    exact nodupKeys_locDirAux es nm [] [] [] List.Pairwise.nil

theorem locFile_loc_singleton (f : String) (ls : List (List Char)) (er : Bool)
    (fr : FileResult) (h : locFile f ls er = some fr) :
    ∃ k v, fr.loc = [(k, v)] := by
  rcases hL : lookupLanguage (detectExt f.data) with _ | lang
  · rw [locFile, hL] at h
    cases h
  · rw [locFile, hL] at h
    cases h
    exact ⟨lang.name, _, rfl⟩

theorem locDirAux_additive (es : List FsEntry) :
    ∀ (n : String) (ds : List DirResult) (fs : List FileResult) (sm : LangMap),
      (∀ dn des, FsEntry.dir dn des ∈ es → Additive (locDir dn des)) →
      (∀ L, lookup0 sm L = sumFiles fs L + sumDirs ds L) →
      (∀ L, mapGet sm L ≠ none →
        (∃ f ∈ fs, mapGet f.loc L ≠ none) ∨ (∃ d ∈ ds, mapGet d.summary L ≠ none)) →
      (∀ d ∈ ds, Additive d) →
      Additive (locDirAux es (DirResult.mk n ds fs sm)) := by
  induction es with
  | nil =>
    intro n ds fs sm _ hsum habs hrec
    rw [locDirAux_nil]
    exact Additive.intro n ds fs sm hsum habs hrec
  | cons e es ih =>
    intro n ds fs sm hdirs hsum habs hrec
    cases e with
    | dir dn des =>
      rw [locDirAux_cons_dir]
      have hc : Additive (locDir dn des) := hdirs dn des (List.mem_cons_self _ _)
      have hnd : NodupKeys (locDir dn des).summary := nodupKeys_locDir dn des
      show Additive (locDirAux es (DirResult.mk n (ds ++ [locDir dn des]) fs
        (mergeSummary sm (locDir dn des).summary)))
      apply ih
      · intro dn' des' hmem
        exact hdirs dn' des' (List.mem_cons_of_mem _ hmem)
      · intro L
        rw [lookup0_mergeSummary, hsum L, entriesSum_eq_lookup0 L _ hnd]
        simp only [sumDirs, List.map_append, List.sum_append, List.map_cons,
          List.map_nil, List.sum_cons, List.sum_nil]
        omega
      · intro L hne
        have hne2 : ¬ (mapGet sm L = none ∧
            ∀ p ∈ (locDir dn des).summary, p.1 ≠ L) :=
          fun hx => hne ((mapGet_mergeSummary_eq_none _ sm L).mpr hx)
        rcases not_and_or.mp hne2 with hx | hx
        · rcases habs L hx with ⟨f, hf, hfne⟩ | ⟨d, hd, hdne⟩
          · exact Or.inl ⟨f, hf, hfne⟩
          · exact Or.inr ⟨d, List.mem_append_left _ hd, hdne⟩
        · refine Or.inr ⟨locDir dn des,
            List.mem_append_right _ (List.mem_singleton.mpr rfl), ?_⟩
          exact fun hcn => hx ((mapGet_eq_none_iff L _).mp hcn)
      · intro d hd
        rcases List.mem_append.mp hd with hx | hx
        · exact hrec d hx
        · rw [List.mem_singleton] at hx
          exact hx ▸ hc
    | file f ls er =>
      rw [locDirAux_cons_file]
      cases hf : locFile f ls er with
      | none =>
        apply ih
        · intro dn' des' hmem
          exact hdirs dn' des' (List.mem_cons_of_mem _ hmem)
        · exact hsum
        · exact habs
        · exact hrec
      | some fr =>
        obtain ⟨k, v, hloc⟩ := locFile_loc_singleton f ls er fr hf
        have hnd : NodupKeys fr.loc := by
          rw [hloc]
          exact List.pairwise_singleton _ _
        show Additive (locDirAux es (DirResult.mk n ds (fs ++ [fr])
          (mergeSummary sm fr.loc)))
        apply ih
        · intro dn' des' hmem
          exact hdirs dn' des' (List.mem_cons_of_mem _ hmem)
        · intro L
          rw [lookup0_mergeSummary, hsum L, entriesSum_eq_lookup0 L _ hnd]
          simp only [sumFiles, List.map_append, List.sum_append, List.map_cons,
            List.map_nil, List.sum_cons, List.sum_nil]
          omega
        · intro L hne
          have hne2 : ¬ (mapGet sm L = none ∧ ∀ p ∈ fr.loc, p.1 ≠ L) :=
            fun hx => hne ((mapGet_mergeSummary_eq_none _ sm L).mpr hx)
          rcases not_and_or.mp hne2 with hx | hx
          · rcases habs L hx with ⟨f', hf', hfne⟩ | ⟨d, hd, hdne⟩
            · exact Or.inl ⟨f', List.mem_append_left _ hf', hfne⟩
            · exact Or.inr ⟨d, hd, hdne⟩
          · refine Or.inl ⟨fr, List.mem_append_right _ (List.mem_singleton.mpr rfl), ?_⟩
            exact fun hcn => hx ((mapGet_eq_none_iff L _).mp hcn)
        · exact hrec
    | other nm2 =>
      rw [locDirAux_cons_other]
      apply ih
      · intro dn' des' hmem
        exact hdirs dn' des' (List.mem_cons_of_mem _ hmem)
      · exact hsum
      · exact habs
      · exact hrec

theorem additive_empty (nm : String) : Additive (DirResult.mk nm [] [] []) := by
  refine Additive.intro nm [] [] [] ?_ ?_ ?_
  · intro L
    simp [lookup0, mapGet, sumFiles, sumDirs]
  · intro L hL
    simp [mapGet] at hL
  · intro d hd
    simp at hd

/-! ## Claim theorems -/

/-- C1: for every `DirResult` the walker produces, at every level of the
returned tree, `summary[L]` is the sum over the node's files of
`locByLanguage[L]` plus the sum over its subdirectories of their
`summary[L]`, for every language `L`; and a language key held by the
summary is held by some immediate child, so keys absent from every child
are absent from the summary. -/
theorem c1_additivity (nm : String) (es : List FsEntry) :
    Additive (locDir nm es) := by
  suffices H : ∀ (N : Nat) (es : List FsEntry) (nm : String),
      sizeOf es < N → Additive (locDir nm es) by
    exact H (sizeOf es + 1) es nm (Nat.lt_succ_self _)
  intro N
  induction N with
  | zero =>
    intro es nm h
    exact absurd h (Nat.not_lt_zero _)
  | succ N ihN =>
    intro es nm h
    rw [locDir_def]
    by_cases hg : nm = ".git"
    · rw [if_pos hg]
      exact additive_empty nm
    · rw [if_neg hg]
      apply locDirAux_additive
      · intro dn des hmem
        have h1 := List.sizeOf_lt_of_mem hmem
        have h2 : sizeOf des < sizeOf es := by
          simp only [FsEntry.dir.sizeOf_spec] at h1
          omega
        exact ihN des dn (by omega)
      · intro L
        simp [lookup0, mapGet, sumFiles, sumDirs]
      · intro L hL
        simp [mapGet] at hL
      · intro d hd
        simp at hd

/-! ## State-machine lemmas for the remaining claims -/

theorem processStep_state_ne_initial (lang : Language) (line : List Char)
    (counted : Bool) (st : LoccState) (h : st ≠ LoccState.initial) :
    (processStep lang st line counted).state ≠ LoccState.initial := by
  cases st with
  | initial => exact absurd rfl h
  | code =>
    simp only [processStep]
    split
    · simp
    · split <;> simp
  | mlc tok =>
    simp only [processStep]
    split <;> simp

theorem runLine_state_ne_initial (lang : Language) :
    ∀ (f : Nat) (st : LoccState) (line : List Char) (c : Bool),
      st ≠ LoccState.initial → (runLine f lang st line c).1 ≠ LoccState.initial := by
  intro f
  induction f with
  | zero =>
    intro st line c h
    simpa [runLine] using h
  | succ f ih =>
    intro st line c h
    simp only [runLine]
    by_cases hd : (processStep lang st line c).done
    · simp only [hd, if_true]
      exact processStep_state_ne_initial lang line c st h
    · simp only [hd, Bool.false_eq_true, if_false]
      exact ih _ _ _ (processStep_state_ne_initial lang line c st h)

theorem processLine_state_ne_initial (lang : Language) (st : LoccState)
    (line : List Char) (h : st ≠ LoccState.initial) :
    (processLine lang st line).1 ≠ LoccState.initial :=
  runLine_state_ne_initial lang _ st (trimLeft line) false h

theorem stateAfter_ne_initial (lang : Language) :
    ∀ (lines : List (List Char)) (st : LoccState),
      st ≠ LoccState.initial → stateAfter lang st lines ≠ LoccState.initial := by
  intro lines
  induction lines with
  | nil =>
    intro st h
    simpa [stateAfter, countRun] using h
  | cons l ls ih =>
    intro st h
    have h1 : (processLine lang st l).1 ≠ LoccState.initial :=
      processLine_state_ne_initial lang st l h
    simpa [stateAfter, countRun] using ih (processLine lang st l).1 h1

theorem runLine_succ (f : Nat) (lang : Language) (st : LoccState)
    (line : List Char) (c : Bool) :
    runLine (f + 1) lang st line c =
      if (processStep lang st line c).done then
        ((processStep lang st line c).state, (processStep lang st line c).counted)
      else runLine f lang (processStep lang st line c).state
        (processStep lang st line c).line (processStep lang st line c).counted := rfl

theorem processStep_initial_not_done (lang : Language) (line : List Char)
    (counted : Bool)
    (hcond : (line.isEmpty || inlineCommentIndex lang line == 0) = false) :
    (processStep lang LoccState.initial line counted).done = false ∧
      (processStep lang LoccState.initial line counted).state ≠ LoccState.initial := by
  simp only [processStep, hcond, Bool.false_eq_true, if_false]
  split <;> simp

theorem processLine_initial_leaves (lang : Language) (line : List Char)
    (h1 : trimLeft line ≠ []) (h2 : inlineCommentIndex lang (trimLeft line) ≠ 0) :
    (processLine lang LoccState.initial line).1 ≠ LoccState.initial := by
  show (runLine ((trimLeft line).length + 2) lang LoccState.initial
    (trimLeft line) false).1 ≠ LoccState.initial
  have hcond : ((trimLeft line).isEmpty ||
      inlineCommentIndex lang (trimLeft line) == 0) = false := by
    simp [List.isEmpty_iff, h1, h2]
  obtain ⟨hdone, hstate⟩ :=
    processStep_initial_not_done lang (trimLeft line) false hcond
  rw [show (trimLeft line).length + 2 = ((trimLeft line).length + 1) + 1 from rfl,
    runLine_succ, hdone]
  simp only [Bool.false_eq_true, if_false]
  exact runLine_state_ne_initial lang _ _ _ _ hstate

/-- C2: for every registered language whose block-comment tokens include
the start token `/*` and the end token `*/`, a line of code followed by a
`/* ... */` comment closing on the same line and more code, processed
from the `Initial` or `Code` state, is counted as exactly one code line:
the per-file count for a file consisting of that line is exactly 1. -/
theorem c2_sameline_open_close :
    ∀ lang ∈ allLanguages,
      "/*".data ∈ lang.multiLineCommentStartingTokens →
      "*/".data ∈ lang.multiLineCommentEndingTokens →
      ∀ st ∈ [LoccState.initial, LoccState.code],
        countLines lang st ["int x = 1; /* note */ int y = 2;".data] = 1 ∧
        (processLine lang st ("int x = 1; /* note */ int y = 2;".data)).2 = true := by
  decide

/-- Witness for C2 at the C descriptor and both entry states. -/
theorem c2_witness :
    (langC ∈ allLanguages ∧
      "/*".data ∈ langC.multiLineCommentStartingTokens ∧
      "*/".data ∈ langC.multiLineCommentEndingTokens) ∧
    countLines langC LoccState.initial
      ["int x = 1; /* note */ int y = 2;".data] = 1 ∧
    countLines langC LoccState.code
      ["int x = 1; /* note */ int y = 2;".data] = 1 :=
  ⟨⟨by decide, by decide, by decide⟩,
    (c2_sameline_open_close langC (by decide) (by decide) (by decide)
      LoccState.initial (by decide)).1,
    (c2_sameline_open_close langC (by decide) (by decide) (by decide)
      LoccState.code (by decide)).1⟩

/-- C3: in state `InBlockComment(openToken)`, the candidate closing
tokens the search considers are exactly the single reversed opening token
when that reversal is one of the descriptor's declared block-end tokens,
and otherwise the full declared end-token list. -/
theorem c3_close_token_restriction (lang : Language) (token : List Char) :
    mlcCloseTokens lang token =
      if reversed token ∈ lang.multiLineCommentEndingTokens then [reversed token]
      else lang.multiLineCommentEndingTokens := by
  by_cases h : reversed token ∈ lang.multiLineCommentEndingTokens <;>
    simp [mlcCloseTokens, List.any_eq_true, h]

/-- C9 counterexample: for the C descriptor, a file whose first line is
empty leaves the classifier in the `Initial` state after the first
classify-a-line call, contradicting the claim that the state is no
longer `Initial` after the first call whatever the first line's
content. -/
theorem c9_cex_initial_persists :
    stateAfter langC LoccState.initial [([] : List Char)] = LoccState.initial := by
  decide

/-- C9 (amended): the classifier leaves `Initial` after the first line
that is non-empty after trimming and does not begin with an inline
comment token; empty or inline-comment-opening first lines leave it in
`Initial`.  Once out of `Initial`, it never returns there: from any
non-`Initial` state, the state after processing one line, or any list of
further lines, is never `Initial`. -/
theorem c9_initial_left_for_good (lang : Language) (st : LoccState)
    (line : List Char) (lines : List (List Char)) :
    (trimLeft line ≠ [] → inlineCommentIndex lang (trimLeft line) ≠ 0 →
      (processLine lang LoccState.initial line).1 ≠ LoccState.initial) ∧
    (st ≠ LoccState.initial →
      (processLine lang st line).1 ≠ LoccState.initial) ∧
    (st ≠ LoccState.initial →
      stateAfter lang st lines ≠ LoccState.initial) :=
  ⟨processLine_initial_leaves lang line,
    processLine_state_ne_initial lang st line,
    stateAfter_ne_initial lang lines st⟩

/-- Witness for C9 (amended) at the C descriptor. -/
theorem c9_witness :
    (trimLeft ("x;".data) ≠ [] ∧
      inlineCommentIndex langC (trimLeft ("x;".data)) ≠ 0) ∧
    (processLine langC LoccState.initial ("x;".data)).1 ≠ LoccState.initial ∧
    (processLine langC LoccState.code ("x;".data)).1 ≠ LoccState.initial ∧
    stateAfter langC LoccState.code [([] : List Char)] ≠ LoccState.initial :=
  ⟨⟨by decide, by decide⟩,
    (c9_initial_left_for_good langC LoccState.code ("x;".data)
      [([] : List Char)]).1 (by decide) (by decide),
    (c9_initial_left_for_good langC LoccState.code ("x;".data)
      [([] : List Char)]).2.1 (by decide),
    (c9_initial_left_for_good langC LoccState.code ("x;".data)
      [([] : List Char)]).2.2 (by decide)⟩

/-- C10: for every language descriptor, entry state and file contents,
the count returned by `LocCounter.Count` is at most the number of
physical lines read (it is a `Nat`, hence non-negative): each physical
line starts with the counted flag cleared and contributes at most 1. -/
theorem c10_count_le_lines (lang : Language) (st : LoccState)
    (lines : List (List Char)) :
    countLines lang st lines ≤ lines.length := by
  induction lines generalizing st with
  | nil => simp [countLines, countRun]
  | cons l ls ih =>
    have h := ih (processLine lang st l).1
    simp only [countLines, countRun, List.length_cons] at h ⊢
    split <;> omega

/-- C4 counterexample: a directory named `.git` does appear in its
parent's `subdirs` sequence (as an empty `DirResult`), contradicting the
claim that it never appears in any `subdirs` sequence. -/
theorem c4_cex_git_in_subdirs :
    (locDir "root" [FsEntry.dir ".git"
        [FsEntry.file "a.go" ["x := 1".data] false]]).subdirs =
      [DirResult.mk ".git" [] [] []] := by
  simp [locDir, locDirAux, pushDir, DirResult.name, DirResult.subdirs,
    DirResult.files, DirResult.summary, mergeSummary]

/-- C4 (amended): a directory literally named `.git` anywhere in the
tree contributes 0 to every per-language count at every level — walking
it yields the empty result, and a parent directory's summary and files
are exactly what they would be if the `.git` child were absent; the
`.git` child does appear in the parent's `subdirs`, but only as that
empty result. -/
theorem c4_git_contributes_nothing (es : List FsEntry) (nm : String)
    (pre post : List FsEntry) :
    locDir ".git" es = DirResult.mk ".git" [] [] [] ∧
    (locDir nm (pre ++ FsEntry.dir ".git" es :: post)).summary =
      (locDir nm (pre ++ post)).summary ∧
    (locDir nm (pre ++ FsEntry.dir ".git" es :: post)).files =
      (locDir nm (pre ++ post)).files := by
  have hgit : locDir ".git" es = DirResult.mk ".git" [] [] [] := by
    rw [locDir_def, if_pos rfl]
  refine ⟨hgit, ?_⟩
  rw [locDir_def, locDir_def]
  by_cases hg : nm = ".git"
  · rw [if_pos hg, if_pos hg]
    exact ⟨rfl, rfl⟩
  · rw [if_neg hg, if_neg hg, locDirAux_append, locDirAux_append,
      locDirAux_cons_dir, hgit]
    generalize locDirAux pre (DirResult.mk nm [] [] []) = A
    obtain ⟨an, ads, afs, asm⟩ := A
    simp only [pushDir, DirResult.name, DirResult.subdirs, DirResult.files,
      DirResult.summary, mergeSummary_nil]
    rw [locDirAux_acc post an (ads ++ [DirResult.mk ".git" [] [] []]) afs asm,
      locDirAux_acc post an ads afs asm]
    exact ⟨rfl, rfl⟩

/-- C5: a file whose detected extension (or special basename) is not in
the language registry contributes nothing anywhere: the walk of a
directory containing it is identical to the walk of the same directory
without it, so the file is absent from `files` and `summary` and every
sibling is counted exactly as before. -/
theorem c5_unsupported_file_skipped (nm f : String) (ls : List (List Char))
    (er : Bool) (pre post : List FsEntry)
    (h : lookupLanguage (detectExt f.data) = none) :
    locDir nm (pre ++ FsEntry.file f ls er :: post) = locDir nm (pre ++ post) := by
  have hf : locFile f ls er = none := by
    unfold locFile
    rw [h]
  rw [locDir_def, locDir_def]
  by_cases hg : nm = ".git"
  · rw [if_pos hg, if_pos hg]
  · rw [if_neg hg, if_neg hg, locDirAux_append, locDirAux_append,
      locDirAux_cons_file, hf]

/-- Witness for C5: a `.xyz` file is dropped while its `.go` sibling is
still counted. -/
theorem c5_witness :
    lookupLanguage (detectExt ("data.xyz".data)) = none ∧
    locDir "root" [FsEntry.file "a.go" ["x := 1".data] false,
        FsEntry.file "data.xyz" ["a".data] false] =
      locDir "root" [FsEntry.file "a.go" ["x := 1".data] false] :=
  ⟨by decide, by
    have h := c5_unsupported_file_skipped "root" "data.xyz" ["a".data] false
      [FsEntry.file "a.go" ["x := 1".data] false] [] (by decide)
    simpa using h⟩

/-- C6: a read failure partway through a file loses nothing that was
already counted: `Count` returns the count accumulated over the lines
scanned before the failure, paired with the error; `locFile` wraps the
same `FileResult` as for a file that simply ended there; and the
enclosing directory walk is identical to the walk where that file
finished early, so the partial count participates in `files` and
`summary` as usual. -/
theorem c6_partial_count_kept (lang : Language) (lines : List (List Char))
    (f nm : String) (pre post : List FsEntry) :
    LocCounterCount lang lines true =
      (countLines lang LoccState.initial lines, true) ∧
    locFile f lines true = locFile f lines false ∧
    locDir nm (pre ++ FsEntry.file f lines true :: post) =
      locDir nm (pre ++ FsEntry.file f lines false :: post) := by
  refine ⟨rfl, rfl, ?_⟩
  rw [locDir_def, locDir_def]
  by_cases hg : nm = ".git"
  · rw [if_pos hg, if_pos hg]
  · rw [if_neg hg, if_neg hg, locDirAux_append, locDirAux_append,
      locDirAux_cons_file, locDirAux_cons_file,
      show locFile f lines true = locFile f lines false from rfl]

/-- C7 (code bug): for a root path that stats to a regular file with an
unsupported extension, `locFile` returns `nil`, and `CountLoc`
dereferences that `nil` `*FileResult` (`fileResult.Name`), so the call
panics instead of returning normally; `none` marks the dereference. -/
theorem c7_unsupported_root_file_panics :
    CountLoc "data.xyz" (RootInfo.regular ["x = 1".data] false) = none ∧
    locFile "data.xyz" ["x = 1".data] false = none :=
  ⟨rfl, rfl⟩

/-- C8: merging any permutation of the same child results into a
directory's summary yields the same summary mapping: per-language totals
are sums, and a key is present exactly when some child holds it, both
independent of arrival order. -/
theorem c8_merge_order_irrelevant (ms₁ ms₂ : List LangMap)
    (h : ms₁.Perm ms₂) (L : String) :
    mapGet (foldSummaries ms₁) L = mapGet (foldSummaries ms₂) L := by
  apply option_nat_ext
  · rw [foldSummaries, foldSummaries, mapGet_foldSummaries_general,
      mapGet_foldSummaries_general]
    constructor
    · rintro ⟨hn, ha⟩
      exact ⟨hn, fun m hm => ha m (h.mem_iff.mpr hm)⟩
    · rintro ⟨hn, ha⟩
      exact ⟨hn, fun m hm => ha m (h.mem_iff.mp hm)⟩
  · show lookup0 (foldSummaries ms₁) L = lookup0 (foldSummaries ms₂) L
    rw [foldSummaries, foldSummaries, lookup0_foldSummaries_general,
      lookup0_foldSummaries_general, (h.map (fun m => entriesSum m L)).sum_eq]

/-- Witness for C8 on two concrete child maps in both orders. -/
theorem c8_witness :
    ([[("Go", 2)], [("Python", 1)]] : List LangMap).Perm
        [[("Python", 1)], [("Go", 2)]] ∧
    mapGet (foldSummaries [[("Go", 2)], [("Python", 1)]]) "Go" =
      mapGet (foldSummaries [[("Python", 1)], [("Go", 2)]]) "Go" :=
  ⟨by decide, c8_merge_order_irrelevant _ _ (by decide) "Go"⟩

end Glocc
